import Mathlib

/-!
Shallow embedding of `src/script.js`, the P-M interaction-diagram engine
for a rectangular reinforced-concrete column section.

JavaScript numbers are modelled as exact rationals (`ℚ`); the script only
uses addition, subtraction, multiplication, division, comparisons and
min/max-style clamping, so every formula transfers verbatim.  A
non-numeric input (`NaN` after `parseFloat` / `parseInt`) is modelled as
`Option.none` at the raw-input boundary (`RawInputs`); inside the numeric
core every value is an actual rational.
-/

/-- Steel modulus `Es = 2.04e6` (script.js line 3). -/
def Es : ℚ := 2040000

/-- Concrete ultimate strain `epsilon_cu = 0.003` (script.js line 4). -/
def epsilon_cu : ℚ := 3 / 1000

/-- One reinforcement layer `{y, As}`: depth from the top fiber and total
steel area at that depth (script.js lines 43-63). -/
structure Layer where
  y : ℚ
  As : ℚ
deriving DecidableEq

/-- One chart point `{x, y}` = (moment, axial force) as produced by
`calculatePoint` (script.js lines 163-166). -/
structure Point where
  x : ℚ
  y : ℚ
deriving DecidableEq

/-- Everything the numeric part of `calculateAndDraw` hands on: the ordered
point list plus the two UI summary scalars `Po` and `Mo_approx`
(script.js lines 77-112). -/
structure Diagram where
  points : List Point
  Po : ℚ
  Mo_approx : ℚ
deriving DecidableEq

/-- Side layers (script.js lines 52-64): when `ny > 2` there are `ny - 2`
layers at `cover + i * (h - 2*cover) / (ny - 1)` for `i = 1 .. ny - 2`,
each of area `2 * barArea`; otherwise none. -/
def sideLayers (h cover barArea : ℚ) (ny : ℤ) : List Layer :=
  if 2 < ny then
    (List.range (ny - 2).toNat).map fun (i : ℕ) =>
      ⟨cover + ((i : ℚ) + 1) * ((h - 2 * cover) / ((ny : ℚ) - 1)), 2 * barArea⟩
  else []

/-- Full layer list (script.js lines 44-64): top layer `{cover, nx*barArea}`,
bottom layer `{h - cover, nx*barArea}`, then the side layers. -/
def steelLayers (h cover barArea : ℚ) (nx ny : ℤ) : List Layer :=
  ⟨cover, (nx : ℚ) * barArea⟩ :: ⟨h - cover, (nx : ℚ) * barArea⟩ ::
    sideLayers h cover barArea ny

/-- Total steel area `Ast` (script.js line 67): a reduce over the layers
with initial value 0. -/
def Ast (layers : List Layer) : ℚ :=
  layers.foldl (fun s lay => s + lay.As) 0

/-- Concrete stress-block factor `beta1` (script.js lines 70-74): 0.85 for
`fc <= 280`, else `0.85 - 0.05*(fc-280)/70` floored at 0.65. -/
def beta1 (fc : ℚ) : ℚ :=
  if fc > 280 then
    if 0.85 - 0.05 * (fc - 280) / 70 < 0.65 then 0.65
    else 0.85 - 0.05 * (fc - 280) / 70
  else 0.85

/-- Stress-block depth (script.js lines 123-124): `a = beta1 * c`, capped
at the section depth `h`. -/
def aBlock (b1 c h : ℚ) : ℚ :=
  if b1 * c > h then h else b1 * c

/-- Unclamped steel stress (script.js lines 143-146):
`fs = Es * (epsilon_cu * (c - d) / c)` from strain compatibility. -/
def fsRaw (c d : ℚ) : ℚ :=
  Es * (epsilon_cu * (c - d) / c)

/-- Clamped steel stress (script.js lines 146-148): first capped above at
`fy`, then capped below at `-fy`, exactly in the order the script does it. -/
def fsClamped (fy c d : ℚ) : ℚ :=
  if (if fsRaw c d > fy then fy else fsRaw c d) < -fy then -fy
  else (if fsRaw c d > fy then fy else fsRaw c d)

/-- Per-layer steel force `F_s = fs * As` (script.js line 151). -/
def layerF (fy c : ℚ) (lay : Layer) : ℚ :=
  fsClamped fy c lay.y * lay.As

/-- Per-layer moment contribution `M_s = F_s * (h/2 - d)` (script.js
line 156). -/
def layerM (fy c h : ℚ) (lay : Layer) : ℚ :=
  layerF fy c lay * (h / 2 - lay.y)

/-- Base-unit pair `(Pn, Mn)` accumulated by `calculatePoint` before the
final unit conversion (script.js lines 118-160): the concrete block force
and moment as initial values, then one accumulation step per steel layer. -/
def rawForces (c b h fc fy b1 : ℚ) (layers : List Layer) : ℚ × ℚ :=
  let a := aBlock b1 c h
  let Cc := 0.85 * fc * b * a
  let Mc := Cc * (h / 2 - a / 2)
  layers.foldl (fun pm lay => (pm.1 + layerF fy c lay, pm.2 + layerM fy c h lay)) (Cc, Mc)

/-- Solve one neutral-axis depth: `calculatePoint` (script.js lines
118-167), converting `kgf-cm` to `tonf-m` (divide by 100000) and `kgf`
to `tonf` (divide by 1000). -/
def calculatePoint (c b h fc fy b1 : ℚ) (layers : List Layer) : Point :=
  let pm := rawForces c b h fc fy b1 layers
  ⟨pm.2 / 100000, pm.1 / 1000⟩

/-- The fixed descending ladder of `c/h` ratios (script.js lines 90-93;
named `c_ratios` there). -/
def ratioLadder : List ℚ :=
  [2, 1.5, 1.2, 1.1, 1,
   0.9, 0.8, 0.7, 0.6, 0.55, 0.5, 0.45, 0.4, 0.35, 0.3, 0.25, 0.2, 0.15, 0.1, 0.05]

/-- The 20 swept points (script.js lines 97-102), in ladder order, each at
neutral-axis depth `c = ratio * h`. -/
def sweepPoints (fc fy b h b1 : ℚ) (layers : List Layer) : List Point :=
  ratioLadder.map fun r => calculatePoint (r * h) b h fc fy b1 layers

/-- The numeric core of `calculateAndDraw` (script.js lines 37-112):
build the layer model, emit the pure-compression point, the 20 swept
points, the pure-tension point, and the summary scalars `Po` and
`Mo_approx` (the running maximum of swept `x` values, started at 0). -/
def computeDiagram (fc fy b h cover barArea : ℚ) (nx ny : ℤ) : Diagram :=
  let layers := steelLayers h cover barArea nx ny
  let Ag := b * h
  let ast := Ast layers
  let b1 := beta1 fc
  let Po := (0.85 * fc * (Ag - ast) + fy * ast) / 1000
  let sweep := sweepPoints fc fy b h b1 layers
  let maxM := sweep.foldl (fun m p => if p.x > m then p.x else m) 0
  let Pt := (-fy * ast) / 1000
  { points := (⟨0, Po⟩ :: sweep) ++ [⟨0, Pt⟩], Po := Po, Mo_approx := maxM }

/-- The raw values read from the DOM (script.js lines 25-32); `none`
models `NaN` from `parseFloat` / `parseInt` on a non-numeric field. -/
structure RawInputs where
  fc : Option ℚ
  fy : Option ℚ
  b : Option ℚ
  h : Option ℚ
  cover : Option ℚ
  barArea : Option ℚ
  nx : Option ℤ
  ny : Option ℤ

/-- Validation boundary of `calculateAndDraw` (script.js lines 23-116):
line 35 bails out, producing nothing, exactly when one of
`fc, fy, b, h, cover, nx, ny` is `NaN`; `barArea` is never checked.  When
`barArea` alone is `NaN` the script still pushes a full 22-point array
(whose coordinates are all `NaN`); a `NaN` coordinate is not
representable in `ℚ`, so the model substitutes 0 for `barArea` in that
one case, which preserves what the theorems below state about this
function: whether a diagram is emitted at all and how many points it has. -/
def calculateAndDraw (r : RawInputs) : Option Diagram :=
  match r.fc, r.fy, r.b, r.h, r.cover, r.nx, r.ny with
  | some fc, some fy, some b, some h, some cover, some nx, some ny =>
      some (computeDiagram fc fy b h cover (r.barArea.getD 0) nx ny)
  | _, _, _, _, _, _, _ => none

/-! ## Helper lemmas -/

lemma Ast_eq_sum (layers : List Layer) : Ast layers = (layers.map Layer.As).sum := by
  suffices hgen : ∀ (l : List Layer) (a : ℚ),
      l.foldl (fun s lay => s + lay.As) a = a + (l.map Layer.As).sum by
    simpa [Ast] using hgen layers 0
  intro l
  induction l with
  | nil => intro a; simp
  | cons x t ih => intro a; simp [ih, add_assoc]

lemma rawForces_eq (c b h fc fy b1 : ℚ) (layers : List Layer) :
    rawForces c b h fc fy b1 layers =
      (0.85 * fc * b * aBlock b1 c h + (layers.map (layerF fy c)).sum,
       0.85 * fc * b * aBlock b1 c h * (h / 2 - aBlock b1 c h / 2)
         + (layers.map (layerM fy c h)).sum) := by
  suffices hgen : ∀ (l : List Layer) (p : ℚ × ℚ),
      l.foldl (fun pm lay => (pm.1 + layerF fy c lay, pm.2 + layerM fy c h lay)) p
        = (p.1 + (l.map (layerF fy c)).sum, p.2 + (l.map (layerM fy c h)).sum) by
    simp [rawForces, hgen]
  intro l
  induction l with
  | nil => intro p; simp
  | cons x t ih => intro p; simp [ih, add_assoc]

lemma beta1_ge (fc : ℚ) : (0.65 : ℚ) ≤ beta1 fc := by
  unfold beta1
  split_ifs with h1 h2
  · exact le_rfl
  · push_neg at h2; exact h2
  · norm_num

lemma aBlock_le_h (b1 c h : ℚ) : aBlock b1 c h ≤ h := by
  unfold aBlock
  split_ifs with h1
  · exact le_rfl
  · exact not_lt.mp h1

lemma aBlock_nonneg (b1 c h : ℚ) (hb1 : 0 ≤ b1) (hc : 0 ≤ c) (hh : 0 ≤ h) :
    0 ≤ aBlock b1 c h := by
  unfold aBlock
  split_ifs with h1
  · exact hh
  · exact mul_nonneg hb1 hc

lemma fsRaw_anti (c : ℚ) {d1 d2 : ℚ} (hc : 0 < c) (hdd : d1 ≤ d2) :
    fsRaw c d2 ≤ fsRaw c d1 := by
  unfold fsRaw Es epsilon_cu
  have h0 : 3 / 1000 * (c - d2) / c ≤ 3 / 1000 * (c - d1) / c := by
    rw [div_eq_mul_inv, div_eq_mul_inv]
    exact mul_le_mul_of_nonneg_right (by linarith) (inv_nonneg.2 hc.le)
  linarith

lemma fsClamped_anti (fy c : ℚ) {d1 d2 : ℚ} (hc : 0 < c) (hdd : d1 ≤ d2) :
    fsClamped fy c d2 ≤ fsClamped fy c d1 := by
  have hraw := fsRaw_anti c hc hdd
  unfold fsClamped
  split_ifs <;> linarith

lemma pair_nonneg (fy c h d : ℚ) (hc : 0 < c) :
    0 ≤ fsClamped fy c d * (h / 2 - d) + fsClamped fy c (h - d) * (h / 2 - (h - d)) := by
  rcases le_total d (h - d) with hd | hd
  · have hfs := fsClamped_anti fy c hc hd
    have key : fsClamped fy c d * (h / 2 - d) + fsClamped fy c (h - d) * (h / 2 - (h - d))
        = (fsClamped fy c d - fsClamped fy c (h - d)) * (h / 2 - d) := by ring
    rw [key]
    exact mul_nonneg (by linarith) (by linarith)
  · have hfs := fsClamped_anti fy c hc hd
    have key : fsClamped fy c d * (h / 2 - d) + fsClamped fy c (h - d) * (h / 2 - (h - d))
        = (fsClamped fy c (h - d) - fsClamped fy c d) * (d - h / 2) := by ring
    rw [key]
    exact mul_nonneg (by linarith) (by linarith)

lemma range_map_sum (f : ℕ → ℚ) (n : ℕ) :
    ((List.range n).map f).sum = ∑ i ∈ Finset.range n, f i := by
  induction n with
  | zero => simp
  | succ k ih =>
    rw [List.range_succ, List.map_append, List.sum_append, Finset.sum_range_succ, ih]
    simp

lemma side_sum_nonneg (fy c h cover ba s : ℚ) (n : ℕ) (hc : 0 < c) (hba : 0 ≤ ba)
    (hs : ((n : ℚ) + 1) * s = h - 2 * cover) :
    0 ≤ ∑ i ∈ Finset.range n, layerM fy c h ⟨cover + ((i : ℚ) + 1) * s, 2 * ba⟩ := by
  have hpair : ∀ i ∈ Finset.range n,
      0 ≤ layerM fy c h ⟨cover + ((i : ℚ) + 1) * s, 2 * ba⟩
        + layerM fy c h ⟨cover + ((↑(n - 1 - i) : ℚ) + 1) * s, 2 * ba⟩ := by
    intro i hi
    have hin : i < n := Finset.mem_range.mp hi
    have hcast : ((n - 1 - i : ℕ) : ℚ) = (n : ℚ) - 1 - (i : ℚ) := by
      have hrw : n - 1 - i = n - (i + 1) := by omega
      rw [hrw, Nat.cast_sub (by omega)]
      push_cast
      ring
    have hdepth : cover + ((↑(n - 1 - i) : ℚ) + 1) * s = h - (cover + ((i : ℚ) + 1) * s) := by
      rw [hcast]
      linear_combination hs
    rw [hdepth]
    have hp := pair_nonneg fy c h (cover + ((i : ℚ) + 1) * s) hc
    simp only [layerM, layerF]
    nlinarith [mul_nonneg (show (0:ℚ) ≤ 2 * ba by linarith) hp]
  have h2 : 0 ≤ ∑ i ∈ Finset.range n,
      (layerM fy c h ⟨cover + ((i : ℚ) + 1) * s, 2 * ba⟩
        + layerM fy c h ⟨cover + ((↑(n - 1 - i) : ℚ) + 1) * s, 2 * ba⟩) :=
    Finset.sum_nonneg hpair
  rw [Finset.sum_add_distrib] at h2
  have h3 : ∑ i ∈ Finset.range n, layerM fy c h ⟨cover + ((↑(n - 1 - i) : ℚ) + 1) * s, 2 * ba⟩
      = ∑ i ∈ Finset.range n, layerM fy c h ⟨cover + ((i : ℚ) + 1) * s, 2 * ba⟩ :=
    Finset.sum_range_reflect (fun j => layerM fy c h ⟨cover + ((j : ℚ) + 1) * s, 2 * ba⟩) n
  rw [h3] at h2
  linarith

lemma rawMn_nonneg (c b h fc fy cover ba : ℚ) (nx ny : ℤ) (b1 : ℚ)
    (hfc : 0 ≤ fc) (hb : 0 ≤ b) (hh : 0 < h) (hba : 0 ≤ ba) (hnx : 0 ≤ nx)
    (hb1 : 0 ≤ b1) (hc : 0 < c) :
    0 ≤ (rawForces c b h fc fy b1 (steelLayers h cover ba nx ny)).2 := by
  rw [rawForces_eq]
  have ha0 : 0 ≤ aBlock b1 c h := aBlock_nonneg b1 c h hb1 hc.le hh.le
  have hah : aBlock b1 c h ≤ h := aBlock_le_h b1 c h
  have hMc : 0 ≤ 0.85 * fc * b * aBlock b1 c h * (h / 2 - aBlock b1 c h / 2) := by
    have hcb : (0:ℚ) ≤ 0.85 * fc * b * aBlock b1 c h :=
      mul_nonneg (mul_nonneg (mul_nonneg (by norm_num) hfc) hb) ha0
    exact mul_nonneg hcb (by linarith)
  have hsum : 0 ≤ ((steelLayers h cover ba nx ny).map (layerM fy c h)).sum := by
    simp only [steelLayers, List.map_cons, List.sum_cons]
    have htb : 0 ≤ layerM fy c h ⟨cover, (nx:ℚ) * ba⟩
        + layerM fy c h ⟨h - cover, (nx:ℚ) * ba⟩ := by
      have hp := pair_nonneg fy c h cover hc
      have hnxba : (0:ℚ) ≤ (nx:ℚ) * ba :=
        mul_nonneg (by exact_mod_cast hnx) hba
      simp only [layerM, layerF]
      nlinarith [mul_nonneg hnxba hp]
    have hside : 0 ≤ ((sideLayers h cover ba ny).map (layerM fy c h)).sum := by
      unfold sideLayers
      split_ifs with hny
      · rw [List.map_map, range_map_sum]
        simp only [Function.comp]
        apply side_sum_nonneg fy c h cover ba _ _ hc hba
        have hcast : (((ny - 2).toNat : ℚ)) = (ny : ℚ) - 2 := by
          rw [← Int.cast_natCast (R := ℚ), Int.toNat_of_nonneg (by omega : (0:ℤ) ≤ ny - 2)]
          push_cast
          ring
        rw [hcast]
        have hne : ((ny : ℚ) - 1) ≠ 0 := by
          have h3 : (3 : ℚ) ≤ (ny : ℚ) := by exact_mod_cast (by omega : (3:ℤ) ≤ ny)
          intro hcontra
          linarith
        field_simp
        ring
      · simp
    linarith
  linarith

set_option maxRecDepth 4000

/-- Projection of the point list out of `computeDiagram`, by unfolding. -/
lemma computeDiagram_points (fc fy b h cover barArea : ℚ) (nx ny : ℤ) :
    (computeDiagram fc fy b h cover barArea nx ny).points =
      (⟨0, (0.85 * fc * (b * h - Ast (steelLayers h cover barArea nx ny))
             + fy * Ast (steelLayers h cover barArea nx ny)) / 1000⟩ ::
        sweepPoints fc fy b h (beta1 fc) (steelLayers h cover barArea nx ny))
      ++ [⟨0, -fy * Ast (steelLayers h cover barArea nx ny) / 1000⟩] := rfl

/-- Projection of the summary scalar out of `computeDiagram`, by unfolding. -/
lemma computeDiagram_Mo (fc fy b h cover barArea : ℚ) (nx ny : ℤ) :
    (computeDiagram fc fy b h cover barArea nx ny).Mo_approx =
      (sweepPoints fc fy b h (beta1 fc) (steelLayers h cover barArea nx ny)).foldl
        (fun m p => if p.x > m then p.x else m) 0 := rfl

lemma computeDiagram_length (fc fy b h cover barArea : ℚ) (nx ny : ℤ) :
    (computeDiagram fc fy b h cover barArea nx ny).points.length = 22 := by
  rw [computeDiagram_points]
  simp [sweepPoints, ratioLadder]

lemma le_foldl_max (l : List ℚ) (a : ℚ) : a ≤ l.foldl max a := by
  induction l generalizing a with
  | nil => exact le_rfl
  | cons x t ih =>
    simp only [List.foldl_cons]
    exact le_trans (le_max_left a x) (ih (max a x))

lemma mem_le_foldl_max (l : List ℚ) : ∀ (a x : ℚ), x ∈ l → x ≤ l.foldl max a := by
  induction l with
  | nil => intro a x hx; cases hx
  | cons y t ih =>
    intro a x hx
    simp only [List.foldl_cons]
    rcases List.mem_cons.mp hx with rfl | hmem
    · exact le_trans (le_max_right a x) (le_foldl_max t (max a x))
    · exact ih (max a y) x hmem

lemma foldl_max_mem_or (l : List ℚ) : ∀ a : ℚ, l.foldl max a = a ∨ l.foldl max a ∈ l := by
  induction l with
  | nil => intro a; exact Or.inl rfl
  | cons y t ih =>
    intro a
    simp only [List.foldl_cons]
    rcases ih (max a y) with heq | hmem
    · rw [heq]
      rcases max_choice a y with hca | hcy
      · exact Or.inl hca
      · exact Or.inr (by rw [hcy]; exact List.mem_cons_self y t)
    · exact Or.inr (List.mem_cons_of_mem y hmem)

lemma foldl_maxStep_eq (l : List ℚ) (a : ℚ) :
    l.foldl (fun m x => if x > m then x else m) a = l.foldl max a := by
  have hfun : (fun (m x : ℚ) => if x > m then x else m) = fun (m x : ℚ) => max m x := by
    funext m x
    rcases le_or_lt x m with hxm | hxm
    · rw [if_neg (not_lt.mpr hxm), max_eq_left hxm]
    · rw [if_pos hxm, max_eq_right hxm.le]
  rw [hfun]

lemma ratioLadder_pos : ∀ r ∈ ratioLadder, (0:ℚ) < r := by
  intro r hr
  fin_cases hr <;> norm_num

/-! ## Claim theorems -/

/-- C1 (counterexample): the claim says that for any input violating a stated
invariant the engine produces no diagram and signals the violated invariant.
Here is a fully numeric input with `cover = 30 >= h/2 = 25` (so the invariant
`h > 2*cover` fails, and side-layer spacing is negative) for which
`calculateAndDraw` nevertheless emits a diagram. -/
theorem invalid_cover_still_draws :
    (2 * (30:ℚ) ≥ 50) ∧
    (calculateAndDraw
      ⟨some 280, some 4200, some 30, some 50, some 30, some (57/20), some 3, some 3⟩).isSome
      = true := by
  constructor
  · norm_num
  · rfl

/-- C1 (amended): the engine refuses to produce a diagram exactly when one of
`fc, fy, b, h, cover, nx, ny` is non-numeric (and then silently, without
signalling which check failed); `barArea` is never checked and no other
invariant is enforced. -/
theorem validation_only_checks_numeric (r : RawInputs) :
    (calculateAndDraw r).isSome =
      (r.fc.isSome && r.fy.isSome && r.b.isSome && r.h.isSome && r.cover.isSome &&
        r.nx.isSome && r.ny.isSome) := by
  rcases r with ⟨fc, fy, b, h, cover, ba, nx, ny⟩
  cases fc <;> cases fy <;> cases b <;> cases h <;> cases cover <;> cases nx <;> cases ny <;> rfl

/-- C2: for every valid input, the summary scalar `Mo_approx` of
`computeDiagram` is exactly the maximum `x` (moment) coordinate among the 20
swept points: it is attained by one of them and bounds all of them. -/
theorem mo_approx_is_sweep_max (fc fy b h cover barArea : ℚ) (nx ny : ℤ)
    (hfc : 0 < fc) (hfy : 0 < fy) (hb : 0 < b) (hh : 0 < h) (hcov : 0 < cover)
    (hba : 0 < barArea) (hnx : 1 ≤ nx) (hny : 2 ≤ ny) (hgeom : 2 * cover < h) :
    (computeDiagram fc fy b h cover barArea nx ny).Mo_approx ∈
      (sweepPoints fc fy b h (beta1 fc) (steelLayers h cover barArea nx ny)).map Point.x ∧
    ∀ p ∈ sweepPoints fc fy b h (beta1 fc) (steelLayers h cover barArea nx ny),
      p.x ≤ (computeDiagram fc fy b h cover barArea nx ny).Mo_approx := by
  have hMo : (computeDiagram fc fy b h cover barArea nx ny).Mo_approx
      = ((sweepPoints fc fy b h (beta1 fc) (steelLayers h cover barArea nx ny)).map
          Point.x).foldl max 0 := by
    rw [computeDiagram_Mo, ← foldl_maxStep_eq]
    exact (List.foldl_map Point.x (fun m x => if x > m then x else m)
      (sweepPoints fc fy b h (beta1 fc) (steelLayers h cover barArea nx ny)) 0).symm
  have hxnn : ∀ x ∈ (sweepPoints fc fy b h (beta1 fc)
      (steelLayers h cover barArea nx ny)).map Point.x, 0 ≤ x := by
    intro x hx
    rcases List.mem_map.mp hx with ⟨p, hp, rfl⟩
    rcases List.mem_map.mp hp with ⟨r, hr, rfl⟩
    have hrpos : 0 < r := ratioLadder_pos r hr
    have hcpos : 0 < r * h := mul_pos hrpos hh
    have hraw := rawMn_nonneg (r * h) b h fc fy cover barArea nx ny (beta1 fc)
      hfc.le hb.le hh hba.le (by omega) (by linarith [beta1_ge fc]) hcpos
    show 0 ≤ (rawForces (r * h) b h fc fy (beta1 fc) (steelLayers h cover barArea nx ny)).2 / 100000
    exact div_nonneg hraw (by norm_num)
  constructor
  · rw [hMo]
    rcases foldl_max_mem_or ((sweepPoints fc fy b h (beta1 fc)
        (steelLayers h cover barArea nx ny)).map Point.x) 0 with heq | hmem
    · have h2mem : (2:ℚ) ∈ ratioLadder := by simp [ratioLadder]
      have hpmem : calculatePoint (2 * h) b h fc fy (beta1 fc)
          (steelLayers h cover barArea nx ny) ∈
          sweepPoints fc fy b h (beta1 fc) (steelLayers h cover barArea nx ny) :=
        List.mem_map_of_mem _ h2mem
      have hxmem := List.mem_map_of_mem Point.x hpmem
      have hle := mem_le_foldl_max _ 0 _ hxmem
      have hge := hxnn _ hxmem
      rw [heq] at hle ⊢
      have hx0 : (calculatePoint (2 * h) b h fc fy (beta1 fc)
          (steelLayers h cover barArea nx ny)).x = 0 := le_antisymm hle hge
      rw [← hx0]
      exact hxmem
    · exact hmem
  · intro p hp
    rw [hMo]
    exact mem_le_foldl_max _ 0 _ (List.mem_map_of_mem Point.x hp)

/-- C2 (witness): the theorem applied at the concrete spec example
`fc=280, fy=4200, b=30, h=50, cover=4, barArea=2.85, nx=3, ny=3`. -/
theorem mo_approx_is_sweep_max_witness :
    (computeDiagram 280 4200 30 50 4 (57/20) 3 3).Mo_approx ∈
      (sweepPoints 280 4200 30 50 (beta1 280) (steelLayers 50 4 (57/20) 3 3)).map Point.x ∧
    ∀ p ∈ sweepPoints 280 4200 30 50 (beta1 280) (steelLayers 50 4 (57/20) 3 3),
      p.x ≤ (computeDiagram 280 4200 30 50 4 (57/20) 3 3).Mo_approx :=
  mo_approx_is_sweep_max 280 4200 30 50 4 (57/20) 3 3 (by norm_num) (by norm_num)
    (by norm_num) (by norm_num) (by norm_num) (by norm_num) (by norm_num) (by norm_num)
    (by norm_num)

/-- C3: the emitted point sequence is exactly pure compression, then the
solver results for the fixed descending ladder `2.0 .. 0.05` in order, then
pure tension; every swept point is the internally computed base-unit moment
divided by 100000 paired with the base-unit force divided by 1000. -/
theorem points_order_and_scaling (fc fy b h cover barArea : ℚ) (nx ny : ℤ) :
    (computeDiagram fc fy b h cover barArea nx ny).points =
      ⟨0, (0.85 * fc * (b * h - Ast (steelLayers h cover barArea nx ny))
            + fy * Ast (steelLayers h cover barArea nx ny)) / 1000⟩ ::
      (([2, 1.5, 1.2, 1.1, 1, 0.9, 0.8, 0.7, 0.6, 0.55, 0.5, 0.45, 0.4, 0.35,
          0.3, 0.25, 0.2, 0.15, 0.1, 0.05] : List ℚ).map
        fun r =>
          ⟨(rawForces (r * h) b h fc fy (beta1 fc) (steelLayers h cover barArea nx ny)).2
              / 100000,
           (rawForces (r * h) b h fc fy (beta1 fc) (steelLayers h cover barArea nx ny)).1
              / 1000⟩)
      ++ [⟨0, -fy * Ast (steelLayers h cover barArea nx ny) / 1000⟩] := rfl

/-- C4: the first emitted point is `(M = 0, P = Po)` with
`Po = (0.85*fc*(Ag - Ast) + fy*Ast) / 1000`, `Ag = b*h` and `Ast` the sum of
the builder layer areas. -/
theorem first_point_pure_compression (fc fy b h cover barArea : ℚ) (nx ny : ℤ) :
    (computeDiagram fc fy b h cover barArea nx ny).points.head? =
      some ⟨0, (0.85 * fc * (b * h - ((steelLayers h cover barArea nx ny).map Layer.As).sum)
                 + fy * ((steelLayers h cover barArea nx ny).map Layer.As).sum) / 1000⟩ := by
  rw [computeDiagram_points, ← Ast_eq_sum]
  rfl

/-- C5: the final emitted point is exactly `(M = 0, P = -fy*Ast/1000)` with
`Ast` the sum of the builder layer areas. -/
theorem last_point_pure_tension (fc fy b h cover barArea : ℚ) (nx ny : ℤ) :
    (computeDiagram fc fy b h cover barArea nx ny).points.getLast? =
      some ⟨0, -fy * ((steelLayers h cover barArea nx ny).map Layer.As).sum / 1000⟩ := by
  rw [computeDiagram_points, ← Ast_eq_sum, List.getLast?_concat]

/-- C6: the builder produces the top layer at depth `cover` and the bottom
layer at `h - cover`, each of area `nx*barArea`; for `ny > 2` exactly
`ny - 2` side layers of area `2*barArea`, the i-th (1-indexed) at depth
`cover + i*(h - 2*cover)/(ny - 1)`; for `ny <= 2` no side layers; and for
`ny = 5` exactly 5 layers in total. -/
theorem builder_layer_layout (h cover barArea : ℚ) (nx ny : ℤ) :
    (2 < ny →
      steelLayers h cover barArea nx ny =
        ⟨cover, (nx:ℚ) * barArea⟩ :: ⟨h - cover, (nx:ℚ) * barArea⟩ ::
          (List.range (ny - 2).toNat).map (fun (i : ℕ) =>
            ⟨cover + ((i:ℚ) + 1) * ((h - 2 * cover) / ((ny:ℚ) - 1)), 2 * barArea⟩)) ∧
    (ny ≤ 2 →
      steelLayers h cover barArea nx ny =
        [⟨cover, (nx:ℚ) * barArea⟩, ⟨h - cover, (nx:ℚ) * barArea⟩]) ∧
    (ny = 5 → (steelLayers h cover barArea nx ny).length = 5) := by
  refine ⟨fun h2 => ?_, fun h2 => ?_, fun h5 => ?_⟩
  · simp only [steelLayers, sideLayers]
    rw [if_pos h2]
  · simp only [steelLayers, sideLayers]
    rw [if_neg (by omega : ¬ 2 < ny)]
  · subst h5
    simp [steelLayers, sideLayers]

/-- C6 (witness): for `ny = 5` the builder produces exactly 5 layers. -/
theorem builder_layer_layout_witness :
    (steelLayers 50 4 (57/20) 3 5).length = 5 :=
  (builder_layer_layout 50 4 (57/20) 3 5).2.2 rfl

/-- C7: the effective stress-block depth equals `h` whenever `beta1*c > h`,
and never exceeds `h` for any `c` at all. -/
theorem stress_block_capped (b1 c h : ℚ) :
    (b1 * c > h → aBlock b1 c h = h) ∧ aBlock b1 c h ≤ h := by
  constructor
  · intro hgt
    unfold aBlock
    rw [if_pos hgt]
  · exact aBlock_le_h b1 c h

/-- C7 (witness): at `beta1 = 0.85`, `c = 100`, `h = 50` (so `beta1*c = 85 > h`)
the block depth is capped to `h = 50`. -/
theorem stress_block_capped_witness :
    aBlock 0.85 100 50 = 50 ∧ aBlock 0.85 100 50 ≤ 50 :=
  ⟨(stress_block_capped 0.85 100 50).1 (by norm_num), (stress_block_capped 0.85 100 50).2⟩

/-- C8: with `fy > 0`, the clamped steel stress produced by the solver lies
in `[-fy, fy]` for every layer depth `d` and every neutral-axis depth
`c > 0`. -/
theorem steel_stress_clamped (fy c d : ℚ) (hfy : 0 < fy) (hc : 0 < c) :
    -fy ≤ fsClamped fy c d ∧ fsClamped fy c d ≤ fy := by
  unfold fsClamped
  split_ifs with h1 h2 h3 <;> constructor <;> linarith

/-- C8 (witness): the theorem applied at `fy = 4200`, `c = 25`, `d = 46`. -/
theorem steel_stress_clamped_witness :
    -(4200:ℚ) ≤ fsClamped 4200 25 46 ∧ fsClamped 4200 25 46 ≤ 4200 :=
  steel_stress_clamped 4200 25 46 (by norm_num) (by norm_num)

/-- C9: every raw input that passes the engine validation yields a diagram
with exactly 22 points: pure compression, the 20 swept points, pure
tension. -/
theorem diagram_has_22_points (r : RawInputs) (d : Diagram)
    (hd : calculateAndDraw r = some d) : d.points.length = 22 := by
  rcases r with ⟨fc, fy, b, h, cover, ba, nx, ny⟩
  cases fc <;> cases fy <;> cases b <;> cases h <;> cases cover <;> cases nx <;> cases ny <;>
    simp only [calculateAndDraw, Option.some.injEq, reduceCtorEq] at hd
  rw [← hd]
  exact computeDiagram_length _ _ _ _ _ _ _ _

/-- C9 (witness): the theorem applied to a concrete all-numeric raw input. -/
theorem diagram_has_22_points_witness :
    (computeDiagram 280 4200 30 50 4 (57/20) 3 3).points.length = 22 :=
  diagram_has_22_points
    ⟨some 280, some 4200, some 30, some 50, some 4, some (57/20), some 3, some 3⟩
    (computeDiagram 280 4200 30 50 4 (57/20) 3 3) rfl

/-- C10: for every `ny <= 2`, including zero and negative values, the builder
still totally produces the two top/bottom layers and `Ast = 2*nx*barArea`. -/
theorem builder_total_for_small_ny (h cover barArea : ℚ) (nx ny : ℤ) (hny : ny ≤ 2) :
    steelLayers h cover barArea nx ny =
      [⟨cover, (nx:ℚ) * barArea⟩, ⟨h - cover, (nx:ℚ) * barArea⟩] ∧
    Ast (steelLayers h cover barArea nx ny) = 2 * ((nx:ℚ) * barArea) := by
  have hside : sideLayers h cover barArea ny = [] := by
    simp only [sideLayers]
    rw [if_neg (by omega : ¬ 2 < ny)]
  constructor
  · simp [steelLayers, hside]
  · simp only [Ast, steelLayers, hside, List.foldl_cons, List.foldl_nil]
    ring

/-- C10 (witness): the theorem applied at the invariant-violating value
`ny = -1`. -/
theorem builder_total_for_small_ny_witness :
    steelLayers 50 4 (57/20) 3 (-1) =
      [⟨4, ((3:ℤ):ℚ) * (57/20)⟩, ⟨50 - 4, ((3:ℤ):ℚ) * (57/20)⟩] ∧
    Ast (steelLayers 50 4 (57/20) 3 (-1)) = 2 * (((3:ℤ):ℚ) * (57/20)) :=
  builder_total_for_small_ny 50 4 (57/20) 3 (-1) (by norm_num)
